import Mathlib

/-
Verification development for the kakaku.com credit-card scraper
(src/c.py: fetch/extract/merge/persist pipeline; src/d.py: image downloader).
Python dicts are embedded as insertion-ordered association lists with
first-occurrence lookup; dict assignment replaces the first occurrence in
place or appends a fresh key at the end, exactly as Python preserves
insertion order.  Clock reads (datetime.now().isoformat()) are embedded as
an explicit timestamp parameter captured once per call, mirroring the single
read the code performs at the top of merge_cards and of the fresh-store path.
-/

namespace JapanCard

/-- Brand sub-record as built by the extractor:
{'image_url': brand_img['src'], 'name': brand_img['alt']} (src/c.py:92-95). -/
structure Brand where
  image_url : String
  name : String
deriving DecidableEq

/-- JSON-ish values stored in a card record: strings, the list of brand
sub-records, and the list of feature strings. -/
inductive Val where
  | s (v : String)
  | brands (v : List Brand)
  | strs (v : List String)
deriving DecidableEq

/-- A card record: a Python dict from field name to value. -/
abbrev Card := List (String × Val)

/-- The in-memory store: a Python dict from the value at key name to the
record (src/c.py:23 keys by card['name'], which is a value, not a raw
string — hence keys of type Val). -/
abbrev Store := List (Val × Card)

/-- Lookup of a key in a Python-dict association list (first occurrence). -/
def aget {κ α : Type} [DecidableEq κ] : List (κ × α) → κ → Option α
  | [], _ => none
  | p :: rest, k => if p.1 = k then some p.2 else aget rest k

/-- Python dict assignment d[k] = v: replace the first binding of k in
place, or append a fresh binding at the end (insertion order preserved). -/
def aset {κ α : Type} [DecidableEq κ] : List (κ × α) → κ → α → List (κ × α)
  | [], k, v => [(k, v)]
  | p :: rest, k, v => if p.1 = k then (k, v) :: rest else p :: aset rest k v

/-- Python membership test k in d. -/
def ahas {κ α : Type} [DecidableEq κ] (d : List (κ × α)) (k : κ) : Bool :=
  (aget d k).isSome

/-- Python d.update(c): assign every binding of c into d, left to right. -/
def dupdate (d c : Card) : Card :=
  c.foldl (fun a p => aset a p.1 p.2) d

/-- Well-formed dict: no duplicate keys (always true of real Python dicts). -/
def KeysNodup {κ α : Type} (d : List (κ × α)) : Prop :=
  (d.map Prod.fst).Nodup

instance decKeysNodup {κ α : Type} [DecidableEq κ] (d : List (κ × α)) :
    Decidable (KeysNodup d) :=
  inferInstanceAs (Decidable (d.map Prod.fst).Nodup)

section AssocLemmas

variable {κ α : Type} [DecidableEq κ]

theorem aget_aset_self (d : List (κ × α)) (k : κ) (v : α) :
    aget (aset d k v) k = some v := by
  induction d with
  | nil => simp [aget, aset]
  | cons p rest ih =>
    by_cases h : p.1 = k
    · simp [aset, h, aget]
    · simp [aset, h, aget, ih]

theorem aget_aset_ne (d : List (κ × α)) {k k2 : κ} (v : α) (h : k2 ≠ k) :
    aget (aset d k v) k2 = aget d k2 := by
  induction d with
  | nil => simp [aget, aset, Ne.symm h]
  | cons p rest ih =>
    by_cases hp : p.1 = k
    · have h2 : ¬ p.1 = k2 := by rw [hp]; exact Ne.symm h
      simp [aset, hp, aget, h2, Ne.symm h]
    · simp [aset, hp, aget, ih]

theorem ahas_false_iff_aget_none (d : List (κ × α)) (k : κ) :
    ahas d k = false ↔ aget d k = none := by
  cases h : aget d k <;> simp [ahas, h]

theorem ahas_true_iff_aget_some (d : List (κ × α)) (k : κ) :
    ahas d k = true ↔ ∃ v, aget d k = some v := by
  cases h : aget d k <;> simp [ahas, h]

theorem mem_of_aget {d : List (κ × α)} {k : κ} {v : α}
    (h : aget d k = some v) : (k, v) ∈ d := by
  induction d with
  | nil => simp [aget] at h
  | cons p rest ih =>
    by_cases hp : p.1 = k
    · simp [aget, hp] at h
      subst h
      rw [← hp]
      exact List.mem_cons_self _ _
    · simp [aget, hp] at h
      exact List.mem_cons_of_mem _ (ih h)

theorem mem_snd_of_aget {d : List (κ × α)} {k : κ} {v : α}
    (h : aget d k = some v) : v ∈ d.map Prod.snd :=
  List.mem_map.mpr ⟨(k, v), mem_of_aget h, rfl⟩

theorem mem_aset {d : List (κ × α)} {k : κ} {v : α} {p : κ × α}
    (h : p ∈ aset d k v) : p = (k, v) ∨ p ∈ d := by
  induction d with
  | nil =>
    simp [aset] at h
    exact Or.inl h
  | cons q rest ih =>
    by_cases hq : q.1 = k
    · simp [aset, hq] at h
      rcases h with h | h
      · exact Or.inl h
      · exact Or.inr (List.mem_cons_of_mem _ h)
    · simp [aset, hq] at h
      rcases h with h | h
      · exact Or.inr (by simp [h])
      · rcases ih h with h2 | h2
        · exact Or.inl h2
        · exact Or.inr (List.mem_cons_of_mem _ h2)

theorem aget_cons_of_head_ne {p : κ × α} {rest : List (κ × α)} {k : κ}
    (h : p.1 ≠ k) : aget (p :: rest) k = aget rest k := by
  simp [aget, h]

end AssocLemmas

theorem ahas_cons_false {p : String × Val} {rest : Card} {k : String}
    (h : ahas (p :: rest) k = false) : p.1 ≠ k ∧ ahas rest k = false := by
  rw [ahas_false_iff_aget_none] at h
  by_cases hp : p.1 = k
  · simp [aget, hp] at h
  · rw [aget_cons_of_head_ne hp] at h
    exact ⟨hp, (ahas_false_iff_aget_none _ _).mpr h⟩

theorem aget_dupdate_not_has {c : Card} {k : String}
    (hk : ahas c k = false) (d : Card) :
    aget (dupdate d c) k = aget d k := by
  induction c generalizing d with
  | nil => simp [dupdate]
  | cons p rest ih =>
    obtain ⟨hne, hrest⟩ := ahas_cons_false hk
    have step : dupdate d (p :: rest) = dupdate (aset d p.1 p.2) rest := rfl
    rw [step, ih hrest, aget_aset_ne _ _ (fun h => hne h.symm)]

theorem ahas_false_of_not_mem_keys {c : Card} {k : String}
    (h : k ∉ c.map Prod.fst) : ahas c k = false := by
  induction c with
  | nil => simp [ahas, aget]
  | cons p rest ih =>
    simp at h
    rw [ahas_false_iff_aget_none, aget_cons_of_head_ne (fun hh => h.1 hh.symm)]
    rw [← ahas_false_iff_aget_none]
    exact ih (by simpa using h.2)

theorem aget_dupdate_has {c : Card} {k : String}
    (hnd : KeysNodup c) (hk : ahas c k = true) (d : Card) :
    aget (dupdate d c) k = aget c k := by
  induction c generalizing d with
  | nil => simp [ahas, aget] at hk
  | cons p rest ih =>
    have step : dupdate d (p :: rest) = dupdate (aset d p.1 p.2) rest := rfl
    rw [KeysNodup, List.map_cons, List.nodup_cons] at hnd
    obtain ⟨hpk, hrestnd⟩ := hnd
    by_cases hp : p.1 = k
    · have hrest : ahas rest k = false :=
        ahas_false_of_not_mem_keys (by rw [← hp]; exact hpk)
      rw [step, aget_dupdate_not_has hrest, hp, aget_aset_self]
      simp [aget, hp]
    · have hk2 : ahas rest k = true := by
        rw [ahas_true_iff_aget_some] at hk ⊢
        obtain ⟨v, hv⟩ := hk
        rw [aget_cons_of_head_ne hp] at hv
        exact ⟨v, hv⟩
      rw [step, ih hrestnd hk2, aget_cons_of_head_ne hp]

/-- Processing of one freshly scraped card inside merge_cards loop
(src/c.py:33-46): skip cards without a name; on an existing name, shallow
dict.update followed by stamping updated_at; on a new name, stamp both
created_at and updated_at onto the card and insert it. -/
def merge_step (now : String) (m : Store) (card : Card) : Store :=
  match aget card "name" with
  | none => m
  | some n =>
    match aget m n with
    | some old => aset m n (aset (dupdate old card) "updated_at" (Val.s now))
    | none =>
        aset m n (aset (aset card "created_at" (Val.s now)) "updated_at" (Val.s now))

/-- The internal merged dict of merge_cards before list(merged.values())
(src/c.py:28-47); current_time is read once and passed as now. -/
def merge_store (now : String) (existing : Store) (new_cards : List Card) : Store :=
  new_cards.foldl (merge_step now) existing

/-- merge_cards(existing_cards, new_cards) (src/c.py:28-48): the merged
dict converted to its value list. -/
def merge_cards (now : String) (existing : Store) (new_cards : List Card) : List Card :=
  (merge_store now existing new_cards).map Prod.snd

theorem merge_store_nil (now : String) (m : Store) :
    merge_store now m [] = m := rfl

theorem merge_store_cons (now : String) (m : Store) (c : Card) (l : List Card) :
    merge_store now m (c :: l) = merge_store now (merge_step now m c) l := rfl

theorem merge_step_no_name {card : Card} (now : String) (m : Store)
    (h : aget card "name" = none) : merge_step now m card = m := by
  simp [merge_step, h]

theorem aget_merge_step_other {card : Card} {n n2 : Val} (now : String) (m : Store)
    (h : aget card "name" = some n2) (hne : n2 ≠ n) :
    aget (merge_step now m card) n = aget m n := by
  rw [merge_step, h]
  cases hm : aget m n2 <;> simp [hm, aget_aset_ne _ _ (Ne.symm hne)]

theorem aget_merge_step_update {card old : Card} {n : Val} (now : String) (m : Store)
    (hname : aget card "name" = some n) (hold : aget m n = some old) :
    aget (merge_step now m card) n =
      some (aset (dupdate old card) "updated_at" (Val.s now)) := by
  simp [merge_step, hname, hold, aget_aset_self]

theorem aget_merge_step_insert {card : Card} {n : Val} (now : String) (m : Store)
    (hname : aget card "name" = some n) (hnew : aget m n = none) :
    aget (merge_step now m card) n =
      some (aset (aset card "created_at" (Val.s now)) "updated_at" (Val.s now)) := by
  simp [merge_step, hname, hnew, aget_aset_self]

theorem aget_updated_record (d : Card) (now : String) :
    aget (aset d "updated_at" (Val.s now)) "updated_at" = some (Val.s now) :=
  aget_aset_self d _ _

theorem aget_created_of_updated (d : Card) (now : String) :
    aget (aset d "updated_at" (Val.s now)) "created_at" = aget d "created_at" :=
  aget_aset_ne d _ (by decide)

theorem aget_created_of_inserted (card : Card) (now : String) :
    aget (aset (aset card "created_at" (Val.s now)) "updated_at" (Val.s now))
      "created_at" = some (Val.s now) := by
  rw [aget_created_of_updated, aget_aset_self]

theorem merge_store_created_stable {now : String} {n : Val} :
    ∀ (new_cards : List Card) (m : Store) (r : Card),
      (∀ c ∈ new_cards, ahas c "created_at" = false) →
      aget m n = some r →
      ∃ r2, aget (merge_store now m new_cards) n = some r2 ∧
        aget r2 "created_at" = aget r "created_at" := by
  intro new_cards
  induction new_cards with
  | nil => intro m r _ hr; exact ⟨r, by simpa [merge_store_nil] using hr, rfl⟩
  | cons c rest ih =>
    intro m r hnc hr
    rw [merge_store_cons]
    cases hname : aget c "name" with
    | none =>
      rw [merge_step_no_name now m hname]
      exact ih m r (fun x hx => hnc x (List.mem_cons_of_mem _ hx)) hr
    | some n2 =>
      by_cases hne : n2 = n
      · subst hne
        have hstep := aget_merge_step_update now m hname hr
        have hchead : ahas c "created_at" = false := hnc c (List.mem_cons_self _ _)
        obtain ⟨r2, hr2, hcr2⟩ := ih (merge_step now m c) _
          (fun x hx => hnc x (List.mem_cons_of_mem _ hx)) hstep
        refine ⟨r2, hr2, ?_⟩
        rw [hcr2, aget_created_of_updated, aget_dupdate_not_has hchead]
      · have hstep : aget (merge_step now m c) n = some r := by
          rw [aget_merge_step_other now m hname hne]; exact hr
        exact ih (merge_step now m c) r
          (fun x hx => hnc x (List.mem_cons_of_mem _ hx)) hstep

theorem merge_store_updated_stable {now : String} {n : Val} :
    ∀ (new_cards : List Card) (m : Store) (r : Card),
      aget m n = some r →
      aget r "updated_at" = some (Val.s now) →
      ∃ r2, aget (merge_store now m new_cards) n = some r2 ∧
        aget r2 "updated_at" = some (Val.s now) := by
  intro new_cards
  induction new_cards with
  | nil => intro m r hr hu; exact ⟨r, by simpa [merge_store_nil] using hr, hu⟩
  | cons c rest ih =>
    intro m r hr hu
    rw [merge_store_cons]
    cases hname : aget c "name" with
    | none => rw [merge_step_no_name now m hname]; exact ih m r hr hu
    | some n2 =>
      by_cases hne : n2 = n
      · subst hne
        have hstep := aget_merge_step_update now m hname hr
        exact ih (merge_step now m c) _ hstep (aget_updated_record _ now)
      · have hstep : aget (merge_step now m c) n = some r := by
          rw [aget_merge_step_other now m hname hne]; exact hr
        exact ih (merge_step now m c) r hstep hu

theorem merge_store_touched_updated {now : String} {n : Val} :
    ∀ (new_cards : List Card) (m : Store),
      (∃ c ∈ new_cards, aget c "name" = some n) →
      ∃ r2, aget (merge_store now m new_cards) n = some r2 ∧
        aget r2 "updated_at" = some (Val.s now) := by
  intro new_cards
  induction new_cards with
  | nil => intro m h; simp at h
  | cons c rest ih =>
    intro m h
    rw [merge_store_cons]
    by_cases hc : aget c "name" = some n
    · cases hold : aget m n with
      | some old =>
        exact merge_store_updated_stable rest _ _
          (aget_merge_step_update now m hc hold) (aget_updated_record _ now)
      | none =>
        exact merge_store_updated_stable rest _ _
          (aget_merge_step_insert now m hc hold) (aget_updated_record _ now)
    · obtain ⟨c2, hc2mem, hc2⟩ := h
      rcases List.mem_cons.mp hc2mem with rfl | htail
      · exact absurd hc2 hc
      · exact ih (merge_step now m c) ⟨c2, htail, hc2⟩

theorem merge_store_inserted_created {now : String} {n : Val} :
    ∀ (new_cards : List Card) (m : Store),
      aget m n = none →
      (∀ c ∈ new_cards, ahas c "created_at" = false) →
      (∃ c ∈ new_cards, aget c "name" = some n) →
      ∃ r2, aget (merge_store now m new_cards) n = some r2 ∧
        aget r2 "created_at" = some (Val.s now) := by
  intro new_cards
  induction new_cards with
  | nil => intro m _ _ h; simp at h
  | cons c rest ih =>
    intro m habs hnc h
    rw [merge_store_cons]
    by_cases hc : aget c "name" = some n
    · have hstep := aget_merge_step_insert now m hc habs
      obtain ⟨r2, hr2, hcr2⟩ := merge_store_created_stable rest _ _
        (fun x hx => hnc x (List.mem_cons_of_mem _ hx)) hstep
      exact ⟨r2, hr2, by rw [hcr2, aget_created_of_inserted]⟩
    · have habs2 : aget (merge_step now m c) n = none := by
        cases hname : aget c "name" with
        | none => rw [merge_step_no_name now m hname]; exact habs
        | some n2 =>
          have hne : n2 ≠ n := fun hh => hc (hh ▸ hname)
          rw [aget_merge_step_other now m hname hne]; exact habs
      obtain ⟨c2, hc2mem, hc2⟩ := h
      rcases List.mem_cons.mp hc2mem with rfl | htail
      · exact absurd hc2 hc
      · exact ih (merge_step now m c) habs2
          (fun x hx => hnc x (List.mem_cons_of_mem _ hx)) ⟨c2, htail, hc2⟩

theorem merge_store_untouched {now : String} {n : Val} :
    ∀ (l : List Card) (m : Store),
      (∀ c ∈ l, aget c "name" ≠ some n) →
      aget (merge_store now m l) n = aget m n := by
  intro l
  induction l with
  | nil => intro m _; rfl
  | cons c rest ih =>
    intro m h
    rw [merge_store_cons]
    have htail : ∀ x ∈ rest, aget x "name" ≠ some n :=
      fun x hx => h x (List.mem_cons_of_mem _ hx)
    cases hname : aget c "name" with
    | none => rw [merge_step_no_name now m hname]; exact ih _ htail
    | some n2 =>
      have hne : n2 ≠ n := fun hh => h c (List.mem_cons_self _ _) (hh ▸ hname)
      rw [ih _ htail, aget_merge_step_other now m hname hne]

/-- C1: merging a batch in which no scraped record carries a created_at
field of its own leaves the created_at of every already-present name
unchanged and stamps updated_at of every touched name with the single
merge timestamp that merge_cards reads once per call and shares across
the whole batch. -/
theorem C1_merge_preserves_created_stamps_updated
    (now : String) (existing : Store) (new_cards : List Card)
    (hnc : ∀ c ∈ new_cards, ahas c "created_at" = false)
    (n : Val) (htouch : ∃ c ∈ new_cards, aget c "name" = some n) :
    ∃ r, aget (merge_store now existing new_cards) n = some r ∧
      r ∈ merge_cards now existing new_cards ∧
      aget r "updated_at" = some (Val.s now) ∧
      ∀ old, aget existing n = some old →
        aget r "created_at" = aget old "created_at" := by
  obtain ⟨r, hr, hu⟩ := merge_store_touched_updated new_cards existing htouch
  refine ⟨r, hr, mem_snd_of_aget hr, hu, ?_⟩
  intro old hold
  obtain ⟨r2, hr2, hc2⟩ := merge_store_created_stable new_cards existing old hnc hold
  have hrr : r2 = r := Option.some.inj (hr2.symm.trans hr)
  rw [← hrr]
  exact hc2

/-- C1 witness: merging one scraped card for the already-stored name A
keeps created_at (= T0) and stamps updated_at with the batch timestamp. -/
theorem C1_witness :
    ∃ r, aget (merge_store "T1"
        [(Val.s "A", [("name", Val.s "A"), ("created_at", Val.s "T0"),
          ("updated_at", Val.s "T0")])]
        [[("name", Val.s "A"), ("annual_fee", Val.s "X")]]) (Val.s "A") = some r ∧
      r ∈ merge_cards "T1"
        [(Val.s "A", [("name", Val.s "A"), ("created_at", Val.s "T0"),
          ("updated_at", Val.s "T0")])]
        [[("name", Val.s "A"), ("annual_fee", Val.s "X")]] ∧
      aget r "updated_at" = some (Val.s "T1") ∧
      ∀ old, aget [(Val.s "A", [("name", Val.s "A"), ("created_at", Val.s "T0"),
          ("updated_at", Val.s "T0")])] (Val.s "A") = some old →
        aget r "created_at" = aget old "created_at" :=
  C1_merge_preserves_created_stamps_updated "T1"
    [(Val.s "A", [("name", Val.s "A"), ("created_at", Val.s "T0"),
      ("updated_at", Val.s "T0")])]
    [[("name", Val.s "A"), ("annual_fee", Val.s "X")]]
    (by decide) (Val.s "A") (by decide)

/-- C1 counterexample: a new record that itself carries a created_at field
overwrites the stored created_at via dict.update (src/c.py:39), so the
claim as stated over every list of new records is false. -/
theorem C1_counterexample :
    aget ((merge_cards "T1"
        [(Val.s "A", [("name", Val.s "A"), ("created_at", Val.s "T0"),
          ("updated_at", Val.s "T0")])]
        [[("name", Val.s "A"), ("created_at", Val.s "T9")]]).headD [])
      "created_at" ≠
    aget [("name", Val.s "A"), ("created_at", Val.s "T0"),
      ("updated_at", Val.s "T0")] "created_at" := by decide

/-- C2: provided no record of the batch carries its own created_at field,
every name absent from the existing mapping but scraped in the batch ends
up stored with created_at = updated_at = the single merge timestamp. -/
theorem C2_insert_created_eq_updated
    (now : String) (existing : Store) (new_cards : List Card)
    (hnc : ∀ c ∈ new_cards, ahas c "created_at" = false)
    (n : Val) (habs : aget existing n = none)
    (htouch : ∃ c ∈ new_cards, aget c "name" = some n) :
    ∃ r, aget (merge_store now existing new_cards) n = some r ∧
      r ∈ merge_cards now existing new_cards ∧
      aget r "created_at" = some (Val.s now) ∧
      aget r "updated_at" = some (Val.s now) := by
  obtain ⟨r, hr, hu⟩ := merge_store_touched_updated new_cards existing htouch
  obtain ⟨r2, hr2, hc2⟩ :=
    merge_store_inserted_created new_cards existing habs hnc htouch
  have hrr : r2 = r := Option.some.inj (hr2.symm.trans hr)
  exact ⟨r, hr, mem_snd_of_aget hr, hrr ▸ hc2, hu⟩

/-- C2 witness: inserting the fresh name B into an empty store stamps both
timestamps with the batch timestamp. -/
theorem C2_witness :
    ∃ r, aget (merge_store "T1" [] [[("name", Val.s "B")]]) (Val.s "B") = some r ∧
      r ∈ merge_cards "T1" [] [[("name", Val.s "B")]] ∧
      aget r "created_at" = some (Val.s "T1") ∧
      aget r "updated_at" = some (Val.s "T1") :=
  C2_insert_created_eq_updated "T1" [] [[("name", Val.s "B")]]
    (by decide) (Val.s "B") (by decide) (by decide)

/-- C2 counterexample: with two batch records of the same fresh name, the
second one carrying its own created_at field, the stored record ends with
created_at = T9 while updated_at = T1, so the claim as stated over every
merge input is false. -/
theorem C2_counterexample :
    aget ((merge_cards "T1" []
        [[("name", Val.s "A")],
         [("name", Val.s "A"), ("created_at", Val.s "T9")]]).headD [])
      "created_at" ≠ some (Val.s "T1") := by decide

/-- C4: merging a same-name scraped record onto an existing record is a
shallow field overwrite: every key of the new record takes its new value,
every key of the old record absent from the new one keeps its old value,
and updated_at is refreshed to the merge timestamp (taking precedence over
any updated_at the new record itself carried). Stated for a batch in which
no other record shares the name. -/
theorem C4_shallow_overwrite
    (now : String) (existing : Store) (l1 l2 : List Card) (card old : Card)
    (n : Val) (hold : aget existing n = some old)
    (hname : aget card "name" = some n)
    (hnd : KeysNodup card)
    (h1 : ∀ c ∈ l1, aget c "name" ≠ some n)
    (h2 : ∀ c ∈ l2, aget c "name" ≠ some n) :
    ∃ r, aget (merge_store now existing (l1 ++ card :: l2)) n = some r ∧
      r ∈ merge_cards now existing (l1 ++ card :: l2) ∧
      (∀ k, k ≠ "updated_at" → ahas card k = true → aget r k = aget card k) ∧
      (∀ k, k ≠ "updated_at" → ahas card k = false → aget r k = aget old k) ∧
      aget r "updated_at" = some (Val.s now) := by
  have hsplit : merge_store now existing (l1 ++ card :: l2) =
      merge_store now (merge_step now (merge_store now existing l1) card) l2 := by
    simp [merge_store, List.foldl_append]
  have hl1 : aget (merge_store now existing l1) n = some old := by
    rw [merge_store_untouched l1 existing h1]; exact hold
  have hstep := aget_merge_step_update now (merge_store now existing l1) hname hl1
  have hr : aget (merge_store now existing (l1 ++ card :: l2)) n =
      some (aset (dupdate old card) "updated_at" (Val.s now)) := by
    rw [hsplit, merge_store_untouched l2 _ h2]; exact hstep
  refine ⟨_, hr, mem_snd_of_aget hr, ?_, ?_, aget_updated_record _ now⟩
  · intro k hk hhas
    rw [aget_aset_ne _ _ hk, aget_dupdate_has hnd hhas]
  · intro k hk hhas
    rw [aget_aset_ne _ _ hk, aget_dupdate_not_has hhas]

/-- C4 witness: merging a scraped record for the stored name A overwrites
the colliding field annual_fee, keeps the old-only field point_rate, and
refreshes updated_at. -/
theorem C4_witness :
    ∃ r, aget (merge_store "T1"
        [(Val.s "A", [("name", Val.s "A"), ("created_at", Val.s "T0"),
          ("updated_at", Val.s "T0"), ("annual_fee", Val.s "X"),
          ("point_rate", Val.s "P")])]
        [[("name", Val.s "A"), ("annual_fee", Val.s "Y")]]) (Val.s "A") = some r ∧
      r ∈ merge_cards "T1"
        [(Val.s "A", [("name", Val.s "A"), ("created_at", Val.s "T0"),
          ("updated_at", Val.s "T0"), ("annual_fee", Val.s "X"),
          ("point_rate", Val.s "P")])]
        [[("name", Val.s "A"), ("annual_fee", Val.s "Y")]] ∧
      (∀ k, k ≠ "updated_at" →
        ahas [("name", Val.s "A"), ("annual_fee", Val.s "Y")] k = true →
        aget r k = aget [("name", Val.s "A"), ("annual_fee", Val.s "Y")] k) ∧
      (∀ k, k ≠ "updated_at" →
        ahas [("name", Val.s "A"), ("annual_fee", Val.s "Y")] k = false →
        aget r k = aget [("name", Val.s "A"), ("created_at", Val.s "T0"),
          ("updated_at", Val.s "T0"), ("annual_fee", Val.s "X"),
          ("point_rate", Val.s "P")] k) ∧
      aget r "updated_at" = some (Val.s "T1") :=
  C4_shallow_overwrite "T1"
    [(Val.s "A", [("name", Val.s "A"), ("created_at", Val.s "T0"),
      ("updated_at", Val.s "T0"), ("annual_fee", Val.s "X"),
      ("point_rate", Val.s "P")])]
    [] [] [("name", Val.s "A"), ("annual_fee", Val.s "Y")]
    [("name", Val.s "A"), ("created_at", Val.s "T0"),
      ("updated_at", Val.s "T0"), ("annual_fee", Val.s "X"),
      ("point_rate", Val.s "P")]
    (Val.s "A") (by decide) (by decide) (by decide)
    (by intro c hc; simp at hc) (by intro c hc; simp at hc)

/-- Brand list item of a spec row: li.p-itemBox_data_brand_item, which may
or may not contain an img; when it does, the img carries src and alt
(src/c.py:88-95). -/
structure BrandImg where
  src : String
  alt : String
deriving DecidableEq

/-- Name link a.p-planSearchList_name_link inside div.card-spec-blk, with
its text and href attribute (src/c.py:105-108). -/
structure NameLink where
  text : String
  href : String
deriving DecidableEq

/-- One li.p-itemBox_data_spec_list row: the text of its
p-itemBox_data_spec_head div, the text of its p-itemBox_data_spec_detail
div, and the brand items found inside the detail (src/c.py:80-100). -/
structure SpecRow where
  head : String
  detailText : String
  brandItems : List (Option BrandImg)
deriving DecidableEq

/-- One li.p-planSearchList_item as seen through the queries the extractor
performs; each doubly-optional field mirrors a two-level find chain, for
example mainCard = div.main-card present, and inside it an img with its
src (src/c.py:71-131). -/
structure Item where
  mainCard : Option (Option String)
  specs : List SpecRow
  cardSpecBlk : Option (Option NameLink)
  rank : Option (Option String)
  catchTtl : Option String
  catchTxt : Option String
  recmItems : List String
deriving DecidableEq

/-- Outcome of fetching and parsing one page: fail covers every exception
the try block of get_card_info can catch (transport error, HTTP error, or
a parse exception over the whole page); success carries the listing items
found by find_all (src/c.py:55-141). -/
inductive PageResult where
  | fail
  | success (items : List Item)
deriving DecidableEq

/-- Spec-row dispatch of the extractor loop (src/c.py:81-100): the stripped
head text selects which field the detail populates; unknown heads are
silently dropped. -/
def apply_spec (card : Card) (spec : SpecRow) : Card :=
  if spec.head.trim = "国際ブランド" then
    aset card "brands" (Val.brands (spec.brandItems.filterMap
      (fun bi => bi.map (fun b => { image_url := b.src, name := b.alt }))))
  else if spec.head.trim = "年会費" then
    aset card "annual_fee" (Val.s spec.detailText.trim)
  else if spec.head.trim = "ポイント還元率" then
    aset card "point_rate" (Val.s spec.detailText.trim)
  else card

/-- Extraction of one card dict from one listing item (src/c.py:71-133):
each field is set only when its elements are found; the record is appended
to the result regardless of which fields were found, and features is
always set. -/
def extract_item (item : Item) : Card :=
  let card : Card := []
  let card := match item.mainCard with
    | some (some src) => aset card "image_url" (Val.s src)
    | _ => card
  let card := item.specs.foldl apply_spec card
  let card := match item.cardSpecBlk with
    | some (some nl) =>
        aset (aset card "name" (Val.s nl.text.trim)) "detail_url"
          (Val.s (String.append "https://kakaku.com" nl.href))
    | _ => card
  let card := match item.rank with
    | some (some rtext) => aset card "rank" (Val.s rtext.trim)
    | _ => card
  let card := match item.catchTtl with
    | some t => aset card "introduction_title" (Val.s t.trim)
    | none => card
  let card := match item.catchTxt with
    | some t => aset card "introduction_text" (Val.s t.trim)
    | none => card
  aset card "features" (Val.strs (item.recmItems.map String.trim))

/-- get_card_info(session, url) (src/c.py:50-141): on any caught exception
the page yields [], otherwise one record per listing item, in page order. -/
def get_card_info : PageResult → List Card
  | PageResult.fail => []
  | PageResult.success items => items.map extract_item

/-- process_page_group (src/c.py:143-153): asyncio.gather preserves task
order, and the comprehension concatenates the per-page record lists. -/
def process_page_group (results : List PageResult) : List Card :=
  (results.map get_card_info).flatten

theorem aget_apply_spec_foldl (specs : List SpecRow) (card : Card) (k : String)
    (hb : k ≠ "brands") (ha : k ≠ "annual_fee") (hp : k ≠ "point_rate") :
    aget (specs.foldl apply_spec card) k = aget card k := by
  induction specs generalizing card with
  | nil => rfl
  | cons s rest ih =>
    rw [List.foldl_cons, ih]
    by_cases c1 : s.head.trim = "国際ブランド"
    · simp [apply_spec, c1, aget_aset_ne _ _ hb]
    · by_cases c2 : s.head.trim = "年会費"
      · simp [apply_spec, c1, c2, aget_aset_ne _ _ ha]
      · by_cases c3 : s.head.trim = "ポイント還元率"
        · simp [apply_spec, c1, c2, c3, aget_aset_ne _ _ hp]
        · simp [apply_spec, c1, c2, c3]

theorem aget_extract_item_eq_none (item : Item) (k : String)
    (h : k ∉ ["image_url", "brands", "annual_fee", "point_rate", "name",
      "detail_url", "rank", "introduction_title", "introduction_text",
      "features"]) :
    aget (extract_item item) k = none := by
  simp only [List.mem_cons, List.not_mem_nil, or_false] at h
  push_neg at h
  obtain ⟨h1, h2, h3, h4, h5, h6, h7, h8, h9, h10⟩ := h
  obtain ⟨mc, specs, csb, rk, ct, cx, ri⟩ := item
  simp only [extract_item]
  rcases mc with _ | _ | src <;>
  rcases csb with _ | _ | nl <;>
  rcases rk with _ | _ | rt <;>
  rcases ct with _ | t1 <;>
  rcases cx with _ | t2 <;>
  simp [aget_aset_ne _ _ h1, aget_aset_ne _ _ h2, aget_aset_ne _ _ h3,
    aget_aset_ne _ _ h4, aget_aset_ne _ _ h5, aget_aset_ne _ _ h6,
    aget_aset_ne _ _ h7, aget_aset_ne _ _ h8, aget_aset_ne _ _ h9,
    aget_aset_ne _ _ h10,
    aget_apply_spec_foldl specs _ k h2 h3 h4, aget,
    Ne.symm h1, Ne.symm h2, Ne.symm h3, Ne.symm h4, Ne.symm h5,
    Ne.symm h6, Ne.symm h7, Ne.symm h8, Ne.symm h9, Ne.symm h10]

theorem extract_item_no_timestamps (item : Item) :
    ahas (extract_item item) "created_at" = false ∧
    ahas (extract_item item) "updated_at" = false := by
  constructor <;>
    [rw [ahas_false_iff_aget_none, aget_extract_item_eq_none item _ (by decide)];
     rw [ahas_false_iff_aget_none, aget_extract_item_eq_none item _ (by decide)]]

/-- Fresh-store stamping of one card (src/c.py:206-208): created_at and
updated_at are both set to the one timestamp read at src/c.py:205. -/
def stamp_card (now : String) (card : Card) : Card :=
  aset (aset card "created_at" (Val.s now)) "updated_at" (Val.s now)

/-- Fresh-store path of main (src/c.py:204-209): every scraped card is
stamped; nothing is filtered, keyed or deduplicated. -/
def stamp_all (now : String) (cards : List Card) : List Card :=
  cards.map (stamp_card now)

/-- load_existing_cards (src/c.py:15-26): a missing file or any load error
yields the empty store; otherwise the array is keyed by the value at name,
keeping only records that have a name. -/
def load_existing_cards : Option (List Card) → Store
  | none => []
  | some cards => cards.foldl (fun m c =>
      match aget c "name" with
      | some n => aset m n c
      | none => m) []

/-- The list main writes to the output file (src/c.py:196-213): merge when
the loaded store is non-empty (Python dict truthiness), otherwise stamp
every scraped card with the current time. -/
def save_cards (now : String) (existing : Store) (all_cards : List Card) : List Card :=
  if existing.isEmpty then stamp_all now all_cards
  else merge_cards now existing all_cards

/-- Timestamp well-formedness of one stored record, bounded by the merge
time: both timestamps present as strings, in order, and not in the future
of the current merge. ISO-8601 strings of datetime.isoformat compare
chronologically in lexicographic string order. -/
def tsOK (now : String) (r : Card) : Prop :=
  ∃ cs us : String, aget r "created_at" = some (Val.s cs) ∧
    aget r "updated_at" = some (Val.s us) ∧ cs ≤ us ∧ us ≤ now

theorem merge_step_tsOK {now : String} {m : Store} {card : Card}
    (hc : ahas card "created_at" = false)
    (hm : ∀ p ∈ m, tsOK now p.2) :
    ∀ p ∈ merge_step now m card, tsOK now p.2 := by
  intro p hp
  cases hname : aget card "name" with
  | none => rw [merge_step_no_name now m hname] at hp; exact hm p hp
  | some n =>
    cases hold : aget m n with
    | some old =>
      have hstep : merge_step now m card =
          aset m n (aset (dupdate old card) "updated_at" (Val.s now)) := by
        simp [merge_step, hname, hold]
      rw [hstep] at hp
      rcases mem_aset hp with rfl | hpm
      · obtain ⟨cs, us, hcs, hus, hle, hbound⟩ := hm (n, old) (mem_of_aget hold)
        refine ⟨cs, now, ?_, aget_updated_record _ now, le_trans hle hbound, le_refl now⟩
        rw [aget_created_of_updated, aget_dupdate_not_has hc, hcs]
      · exact hm p hpm
    | none =>
      have hstep : merge_step now m card =
          aset m n (aset (aset card "created_at" (Val.s now))
            "updated_at" (Val.s now)) := by
        simp [merge_step, hname, hold]
      rw [hstep] at hp
      rcases mem_aset hp with rfl | hpm
      · exact ⟨now, now, aget_created_of_inserted card now,
          aget_updated_record _ now, le_refl now, le_refl now⟩
      · exact hm p hpm

theorem merge_store_tsOK {now : String} :
    ∀ (new_cards : List Card) (m : Store),
      (∀ c ∈ new_cards, ahas c "created_at" = false) →
      (∀ p ∈ m, tsOK now p.2) →
      ∀ p ∈ merge_store now m new_cards, tsOK now p.2 := by
  intro new_cards
  induction new_cards with
  | nil => intro m _ hm; exact hm
  | cons c rest ih =>
    intro m hnc hm
    rw [merge_store_cons]
    exact ih (merge_step now m c)
      (fun x hx => hnc x (List.mem_cons_of_mem _ hx))
      (merge_step_tsOK (hnc c (List.mem_cons_self _ _)) hm)

/-- C5: timestamp invariant of every record the program persists. On the
fresh-store path every record gets created_at = updated_at with no
hypothesis at all; on the merge path, if every already-stored record has
well-ordered timestamps not exceeding the merge time and the scraped
batch carries no created_at fields of its own (which extraction
guarantees, third conjunct), then every merged record again has non-null
created_at ≤ updated_at. -/
theorem C5_persisted_timestamps (now : String) :
    (∀ cards : List Card, ∀ r ∈ stamp_all now cards,
      ∃ cs us : String, aget r "created_at" = some (Val.s cs) ∧
        aget r "updated_at" = some (Val.s us) ∧ cs ≤ us) ∧
    (∀ (existing : Store) (scraped : List Card),
      (∀ c ∈ scraped, ahas c "created_at" = false) →
      (∀ p ∈ existing, tsOK now p.2) →
      ∀ r ∈ merge_cards now existing scraped,
        ∃ cs us : String, aget r "created_at" = some (Val.s cs) ∧
          aget r "updated_at" = some (Val.s us) ∧ cs ≤ us) ∧
    (∀ pr : PageResult, ∀ c ∈ get_card_info pr,
      ahas c "created_at" = false ∧ ahas c "updated_at" = false) := by
  refine ⟨?_, ?_, ?_⟩
  · intro cards r hr
    obtain ⟨card, _, rfl⟩ := List.mem_map.mp hr
    exact ⟨now, now, aget_created_of_inserted card now,
      aget_updated_record _ now, le_refl now⟩
  · intro existing scraped hnc hex r hr
    obtain ⟨p, hpmem, rfl⟩ := List.mem_map.mp hr
    obtain ⟨cs, us, hcs, hus, hle, _⟩ :=
      merge_store_tsOK scraped existing hnc hex p hpmem
    exact ⟨cs, us, hcs, hus, hle⟩
  · intro pr c hc
    cases pr with
    | fail => simp [get_card_info] at hc
    | success items =>
      obtain ⟨item, _, rfl⟩ := List.mem_map.mp hc
      exact extract_item_no_timestamps item

/-- C5 witness: merging one scraped record for name A into a store whose
single record carries timestamps equal to the merge time yields a
persisted record with ordered non-null timestamps. -/
theorem C5_witness :
    ∃ cs us : String,
      aget ((merge_cards "T1"
          [(Val.s "A", [("name", Val.s "A"), ("created_at", Val.s "T1"),
            ("updated_at", Val.s "T1")])]
          [[("name", Val.s "A"), ("annual_fee", Val.s "Y")]]).headD [])
        "created_at" = some (Val.s cs) ∧
      aget ((merge_cards "T1"
          [(Val.s "A", [("name", Val.s "A"), ("created_at", Val.s "T1"),
            ("updated_at", Val.s "T1")])]
          [[("name", Val.s "A"), ("annual_fee", Val.s "Y")]]).headD [])
        "updated_at" = some (Val.s us) ∧ cs ≤ us :=
  (C5_persisted_timestamps "T1").2.1
    [(Val.s "A", [("name", Val.s "A"), ("created_at", Val.s "T1"),
      ("updated_at", Val.s "T1")])]
    [[("name", Val.s "A"), ("annual_fee", Val.s "Y")]]
    (by decide)
    (by
      intro p hp
      rcases List.mem_cons.mp hp with rfl | hp2
      · exact ⟨"T1", "T1", rfl, rfl, le_refl _, le_refl _⟩
      · simp at hp2)
    _ (by decide)

theorem merge_store_filter_names (now : String) :
    ∀ (new_cards : List Card) (m : Store),
      merge_store now m (new_cards.filter (fun c => ahas c "name")) =
        merge_store now m new_cards := by
  intro new_cards
  induction new_cards with
  | nil => intro m; rfl
  | cons c rest ih =>
    intro m
    by_cases hc : ahas c "name" = true
    · have hfil : List.filter (fun x => ahas x "name") (c :: rest) =
          c :: List.filter (fun x => ahas x "name") rest := by
        simp [List.filter_cons, hc]
      rw [hfil, merge_store_cons, merge_store_cons, ih]
    · have hfalse : ahas c "name" = false := by
        cases h : ahas c "name" with
        | true => exact absurd h hc
        | false => rfl
      have hfil : List.filter (fun x => ahas x "name") (c :: rest) =
          List.filter (fun x => ahas x "name") rest := by
        simp [List.filter_cons, hfalse]
      rw [hfil, merge_store_cons,
        merge_step_no_name now m ((ahas_false_iff_aget_none _ _).mp hfalse), ih]

/-- C3 counterexample: a listing item with no name link still yields a
record in the extracted list (cards.append(card) at src/c.py:133 is
unconditional), so the half of the claim that says nameless records are
excluded from the extraction output is false. -/
theorem C3_counterexample :
    ∃ c ∈ get_card_info (PageResult.success
      [⟨none, [], none, none, none, none, []⟩]), ahas c "name" = false := by
  refine ⟨(get_card_info (PageResult.success
    [⟨none, [], none, none, none, none, []⟩])).headD [], by decide, by decide⟩

/-- C3 (amended): nameless records are not excluded from the extraction
output — an item without a name link still contributes a (nameless)
record — but they are excluded from the merge's effect: filtering them out
of the batch leaves merge_cards unchanged. -/
theorem C3_nameless_skipped_by_merge_only :
    (∀ (now : String) (existing : Store) (new_cards : List Card),
      merge_cards now existing (new_cards.filter (fun c => ahas c "name")) =
        merge_cards now existing new_cards) ∧
    ((get_card_info (PageResult.success
        [⟨none, [], none, none, none, none, []⟩])).map
      (fun c => ahas c "name")) = [false] := by
  refine ⟨?_, by decide⟩
  intro now existing new_cards
  rw [merge_cards, merge_cards, merge_store_filter_names]

/-- C8: a failed fetch or parse yields the empty record list for that page
(the try/except of src/c.py:55-141), and the group's gathered result is the
in-order concatenation of the sibling pages' records around that empty
contribution (src/c.py:143-153). -/
theorem C8_failed_page_contributes_empty :
    get_card_info PageResult.fail = [] ∧
    ∀ l1 l2 : List PageResult,
      process_page_group (l1 ++ PageResult.fail :: l2) =
        process_page_group l1 ++ process_page_group l2 := by
  refine ⟨rfl, ?_⟩
  intro l1 l2
  simp [process_page_group, get_card_info]

/-- Fixed full-range page count of the no-argument mode (src/c.py:180). -/
def total_pages : Nat := 114

/-- Concurrency group size (src/c.py:181). -/
def group_size : Nat := 5

/-- num_groups = math.ceil(total_pages / group_size) (src/c.py:182). -/
def num_groups : Nat := (total_pages + group_size - 1) / group_size

/-- Pages of one group (src/c.py:186-188): list(range(start_page,
end_page + 1)) with start = group * size + 1 and end = min((group + 1) *
size, total_pages). -/
def group_pages (g : Nat) : List Nat :=
  List.range' (g * group_size + 1)
    (min ((g + 1) * group_size) total_pages + 1 - (g * group_size + 1))

/-- The chunks the default mode iterates over, in loop order
(src/c.py:185-188). -/
def default_chunks : List (List Nat) := (List.range num_groups).map group_pages

/-- all_cards accumulated by the default-mode loop (src/c.py:185-194),
over an abstract per-page fetch outcome. -/
def main_default (fetch : Nat → PageResult) : List Card :=
  (default_chunks.map (fun pages => process_page_group (pages.map fetch))).flatten

theorem flatten_map_flatten (ll : List (List Nat)) (g : Nat → List Card) :
    (ll.map (fun ps => (ps.map g).flatten)).flatten =
      (ll.flatten.map g).flatten := by
  induction ll with
  | nil => rfl
  | cons l rest ih => simp [ih]

/-- C9: the default mode partitions pages 1..114 into consecutive chunks
of at most 5, whose concatenation is exactly the page range in ascending
order with every page once, and the accumulated record list equals the
concatenation of each page's extracted records in page order. -/
theorem C9_default_schedule :
    (∀ c ∈ default_chunks, c.length ≤ group_size) ∧
    default_chunks.flatten = List.range' 1 total_pages ∧
    ∀ fetch : Nat → PageResult,
      main_default fetch =
        ((List.range' 1 total_pages).map
          (fun p => get_card_info (fetch p))).flatten := by
  refine ⟨by decide, by decide, ?_⟩
  intro fetch
  have h1 : ∀ ps : List Nat, process_page_group (ps.map fetch) =
      (ps.map (fun p => get_card_info (fetch p))).flatten := by
    intro ps
    simp only [process_page_group, List.map_map]
    rfl
  have h2 : default_chunks.flatten = List.range' 1 total_pages := by decide
  rw [main_default]
  simp only [h1]
  rw [flatten_map_flatten default_chunks (fun p => get_card_info (fetch p)), h2]

/-- C9 witness: the first chunk is within the group-size bound. -/
theorem C9_witness : ([1, 2, 3, 4, 5] : List Nat).length ≤ group_size :=
  C9_default_schedule.1 [1, 2, 3, 4, 5] (by decide)

/-- C10: with an empty loaded store the program bypasses merge_cards
entirely: the persisted list is exactly the scraped list, record by record
and in order, each stamped with created_at = updated_at = the one
timestamp, all other fields verbatim — no name filtering and no
deduplication, so duplicate names and nameless records all persist. -/
theorem C10_fresh_store_verbatim (now : String) (existing : Store)
    (scraped : List Card) (h : existing = []) :
    save_cards now existing scraped = stamp_all now scraped ∧
    (save_cards now existing scraped).length = scraped.length ∧
    (∀ card : Card,
      aget (stamp_card now card) "created_at" = some (Val.s now) ∧
      aget (stamp_card now card) "updated_at" = some (Val.s now) ∧
      ∀ k, k ≠ "created_at" → k ≠ "updated_at" →
        aget (stamp_card now card) k = aget card k) := by
  subst h
  refine ⟨rfl, by simp [save_cards, stamp_all], ?_⟩
  intro card
  exact ⟨aget_created_of_inserted card now, aget_updated_record _ now,
    fun k hk1 hk2 => by
      rw [stamp_card, aget_aset_ne _ _ hk2, aget_aset_ne _ _ hk1]⟩

/-- C10 witness: two scraped records sharing the name A are both persisted
on the fresh-store path, each stamped with equal timestamps. -/
theorem C10_witness :
    save_cards "T1" [] [[("name", Val.s "A")], [("name", Val.s "A")]] =
      stamp_all "T1" [[("name", Val.s "A")], [("name", Val.s "A")]] ∧
    (save_cards "T1" [] [[("name", Val.s "A")], [("name", Val.s "A")]]).length =
      ([[("name", Val.s "A")], [("name", Val.s "A")]] : List Card).length ∧
    aget (stamp_card "T1" [("name", Val.s "A")]) "created_at" =
      some (Val.s "T1") ∧
    aget (stamp_card "T1" [("name", Val.s "A")]) "updated_at" =
      some (Val.s "T1") :=
  ⟨(C10_fresh_store_verbatim "T1" []
      [[("name", Val.s "A")], [("name", Val.s "A")]] rfl).1,
   (C10_fresh_store_verbatim "T1" []
      [[("name", Val.s "A")], [("name", Val.s "A")]] rfl).2.1,
   ((C10_fresh_store_verbatim "T1" []
      [[("name", Val.s "A")], [("name", Val.s "A")]] rfl).2.2
      [("name", Val.s "A")]).1,
   ((C10_fresh_store_verbatim "T1" []
      [[("name", Val.s "A")], [("name", Val.s "A")]] rfl).2.2
      [("name", Val.s "A")]).2.1⟩

/-- Scanner for the char position after the first scheme separator
"://", mirroring how urlparse detaches scheme and authority from an
absolute URL. -/
def after_scheme : List Char → Option (List Char)
  | ':' :: '/' :: '/' :: rest => some rest
  | _ :: rest => after_scheme rest
  | [] => none

/-- Prefix of a char list up to (excluding) the first occurrence of a
stop character. -/
def take_until (stop : Char) : List Char → List Char
  | [] => []
  | c :: cs => if c = stop then [] else c :: take_until stop cs

/-- get_filename_from_url (src/d.py:27-29):
os.path.basename(urlparse(url).path) for the absolute http(s) URLs the
scraper stores — drop scheme and host, drop query and fragment, and keep
the path segment after the last slash. -/
def get_filename_from_url (url : String) : String :=
  let cs := url.data
  let path := match after_scheme cs with
    | some rest => rest.dropWhile (fun c => c ≠ '/')
    | none => cs
  let path := take_until '#' (take_until '?' path)
  String.mk (path.foldl (fun acc c => if c = '/' then [] else acc ++ [c]) [])

/-- Python set.add on the model of a set as its members in insertion
order: add the element only when it is not yet present. -/
def sinsert (s : List String) (x : String) : List String :=
  if x ∈ s then s else s ++ [x]

/-- card_urls accumulated by process_cards (src/d.py:60-66): the value at
image_url of every record that has one, as a set of URL strings. -/
def collect_card_urls (cards : List Card) : List String :=
  cards.foldl (fun acc card =>
    match aget card "image_url" with
    | some (Val.s u) => sinsert acc u
    | _ => acc) []

/-- brand_urls accumulated by process_cards (src/d.py:60-72): the
image_url of every brand sub-record of every record that has brands, as a
set of URL strings. -/
def collect_brand_urls (cards : List Card) : List String :=
  cards.foldl (fun acc card =>
    match aget card "brands" with
    | some (Val.brands bs) => bs.foldl (fun a b => sinsert a b.image_url) acc
    | _ => acc) []

/-- Batch filter of process_cards (src/d.py:77-89): keep a URL only when
its target filename is not in the existing-file scan of the category
directory. -/
def filter_new (urls existing : List String) : List String :=
  urls.filter (fun u => !(existing.contains (get_filename_from_url u)))

/-- URLs the downloader will request in the brand category
(src/d.py:81-84, dispatched at src/d.py:97-107). -/
def new_brand_urls (cards : List Card) (existing_brand : List String) : List String :=
  filter_new (collect_brand_urls cards) existing_brand

/-- URLs the downloader will request in the card category
(src/d.py:86-89, dispatched at src/d.py:110-120). -/
def new_card_urls (cards : List Card) (existing_card : List String) : List String :=
  filter_new (collect_card_urls cards) existing_card

/-- Total number of HTTP requests one run of process_cards issues: one
download_image call per filtered URL in either category. -/
def download_requests (cards : List Card)
    (existing_brand existing_card : List String) : Nat :=
  (new_brand_urls cards existing_brand).length +
    (new_card_urls cards existing_card).length

theorem sinsert_nodup {s : List String} (x : String) (h : s.Nodup) :
    (sinsert s x).Nodup := by
  rw [sinsert]
  by_cases hx : x ∈ s
  · simp [hx, h]
  · simp [hx]
    exact List.Nodup.append h (List.nodup_singleton x)
      (by
        intro a ha hax
        simp at hax
        exact hx (hax ▸ ha))

theorem sinsert_fold_nodup (bs : List Brand) :
    ∀ acc : List String, acc.Nodup →
      (bs.foldl (fun a b => sinsert a b.image_url) acc).Nodup := by
  induction bs with
  | nil => intro acc h; exact h
  | cons b rest ih =>
    intro acc h
    exact ih _ (sinsert_nodup _ h)

theorem collect_card_urls_nodup (cards : List Card) :
    (collect_card_urls cards).Nodup := by
  rw [collect_card_urls]
  generalize hacc : ([] : List String) = acc
  have h : acc.Nodup := by rw [← hacc]; exact List.nodup_nil
  clear hacc
  induction cards generalizing acc with
  | nil => exact h
  | cons c rest ih =>
    rw [List.foldl_cons]
    cases hv : aget c "image_url" with
    | none => exact ih _ h
    | some v =>
      cases v with
      | s u => exact ih _ (sinsert_nodup u h)
      | brands _ => exact ih _ h
      | strs _ => exact ih _ h

theorem collect_brand_urls_nodup (cards : List Card) :
    (collect_brand_urls cards).Nodup := by
  rw [collect_brand_urls]
  generalize hacc : ([] : List String) = acc
  have h : acc.Nodup := by rw [← hacc]; exact List.nodup_nil
  clear hacc
  induction cards generalizing acc with
  | nil => exact h
  | cons c rest ih =>
    rw [List.foldl_cons]
    cases hv : aget c "brands" with
    | none => exact ih _ h
    | some v =>
      cases v with
      | s _ => exact ih _ h
      | brands bs => exact ih _ (sinsert_fold_nodup bs _ h)
      | strs _ => exact ih _ h

/-- C6 counterexample: two distinct stored URLs whose path basename is the
same pic.png, with nothing on disk, are both kept by the batch filter, so
two download requests are issued for one target filename — more than the
at-most-one the claim allows. -/
theorem C6_counterexample :
    (new_card_urls
      [[("image_url", Val.s "https://img.example.com/a/pic.png")],
       [("image_url", Val.s "https://cdn.example.com/b/pic.png")]] []).length = 2 ∧
    get_filename_from_url "https://img.example.com/a/pic.png" =
      get_filename_from_url "https://cdn.example.com/b/pic.png" ∧
    "https://img.example.com/a/pic.png" ≠
      "https://cdn.example.com/b/pic.png" := by decide

/-- C6 (amended): deduplication within a batch is by full URL — the
request list of a category contains no URL twice — while the existing-file
scan deduplicates by target filename: no requested URL has its basename
already on disk. Two distinct same-basename URLs neither of which is on
disk are, however, each requested once. -/
theorem C6_dedup_by_url_and_scan
    (cards : List Card) (existing_brand existing_card : List String) :
    (new_brand_urls cards existing_brand).Nodup ∧
    (new_card_urls cards existing_card).Nodup ∧
    (∀ u ∈ new_brand_urls cards existing_brand,
      get_filename_from_url u ∉ existing_brand) ∧
    (∀ u ∈ new_card_urls cards existing_card,
      get_filename_from_url u ∉ existing_card) := by
  refine ⟨List.Nodup.filter _ (collect_brand_urls_nodup cards),
    List.Nodup.filter _ (collect_card_urls_nodup cards), ?_, ?_⟩
  · intro u hu
    have := (List.mem_filter.mp hu).2
    simpa using this
  · intro u hu
    have := (List.mem_filter.mp hu).2
    simpa using this

/-- C6 amended-claim witness: with zzz.png the only file on disk, the
requested card URL's basename is not among the scanned files. -/
theorem C6_witness :
    get_filename_from_url "https://img.example.com/a/pic.png" ∉
      (["zzz.png"] : List String) :=
  (C6_dedup_by_url_and_scan
    [[("image_url", Val.s "https://img.example.com/a/pic.png")]]
    ["zzz.png"] ["zzz.png"]).2.2.2
    "https://img.example.com/a/pic.png" (by decide)

/-- C7: when the startup directory scans already contain the basename of
every image URL referenced by the store, both batch filters are empty and
the run issues zero download requests. -/
theorem C7_rerun_is_noop
    (cards : List Card) (existing_brand existing_card : List String)
    (hb : ∀ u ∈ collect_brand_urls cards,
      get_filename_from_url u ∈ existing_brand)
    (hc : ∀ u ∈ collect_card_urls cards,
      get_filename_from_url u ∈ existing_card) :
    download_requests cards existing_brand existing_card = 0 := by
  have hbe : new_brand_urls cards existing_brand = [] := by
    rw [new_brand_urls, filter_new, List.filter_eq_nil_iff]
    intro u hu
    simpa using hb u hu
  have hce : new_card_urls cards existing_card = [] := by
    rw [new_card_urls, filter_new, List.filter_eq_nil_iff]
    intro u hu
    simpa using hc u hu
  rw [download_requests, hbe, hce]
  rfl

/-- C7 witness: a store referencing one card image and one brand image
whose basenames are both already on disk triggers zero requests. -/
theorem C7_witness :
    download_requests
      [[("image_url", Val.s "https://img.example.com/a/pic.png"),
        ("brands", Val.brands [⟨"https://img.example.com/v/visa.gif", "VISA"⟩])]]
      ["visa.gif"] ["pic.png"] = 0 :=
  C7_rerun_is_noop
    [[("image_url", Val.s "https://img.example.com/a/pic.png"),
      ("brands", Val.brands [⟨"https://img.example.com/v/visa.gif", "VISA"⟩])]]
    ["visa.gif"] ["pic.png"] (by decide) (by decide)

end JapanCard
